import Mathlib

/-!
Shallow embedding of the EarlyInterventionAI retrieval and memory core.

Python strings are modelled as lists of characters (`PyStr`), so that the
string operations the source relies on (`strip`, `split`, slicing, `join`)
can be given executable, provable definitions mirroring Python semantics.

Sources embedded below:
  * `app/rag.py`   — lexical retrieval: chunking, tokenizing, scoring,
                     stable descending sort, budgeted assembly.
  * `app/memory.py` — per-session bounded conversation history.
  * `app/vector_store.py` — vector-store retrieval formatting.
-/

/-- Python `str` modelled as a list of characters. -/
abbrev PyStr := List Char

namespace Py

/-- Python `str.strip()`: drop whitespace from both ends. -/
def strip (s : PyStr) : PyStr :=
  ((s.dropWhile Char.isWhitespace).reverse.dropWhile Char.isWhitespace).reverse

/-- Python `text.split("\n")`: split on every single newline, keeping empty parts. -/
def splitNL : PyStr → List PyStr
  | [] => [[]]
  | c :: rest =>
    if c = '\n' then [] :: splitNL rest
    else
      match splitNL rest with
      | [] => [[c]]
      | h :: t => (c :: h) :: t

/-- Python `text.split("\n\n")`: split on each non-overlapping double newline,
left to right, keeping empty parts. -/
def splitP : PyStr → List PyStr
  | [] => [[]]
  | [c] => [[c]]
  | c :: d :: rest =>
    if c = '\n' ∧ d = '\n' then [] :: splitP rest
    else
      match splitP (d :: rest) with
      | [] => [[c]]
      | h :: t => (c :: h) :: t

/-- Python `sep.join(parts)`. -/
def join (sep : PyStr) : List PyStr → PyStr
  | [] => []
  | [x] => x
  | x :: y :: t => x ++ sep ++ join sep (y :: t)

/-- Python `l[-k:]` on a list: the last `k` elements, except that `l[-0:]`
is the whole list (`-0 == 0`, so the slice starts at the beginning). -/
def lastSlice (l : List α) (k : Nat) : List α :=
  if k = 0 then l else l.drop (l.length - k)

/-- Python `str.split()` with no argument: split on whitespace runs,
discarding empty parts. -/
def splitWs (s : PyStr) : List PyStr :=
  let rec go : List Char → PyStr → List PyStr
    | [], acc => if acc = [] then [] else [acc.reverse]
    | c :: rest, acc =>
      if c.isWhitespace then
        if acc = [] then go rest [] else acc.reverse :: go rest []
      else go rest (c :: acc)
  go s []

end Py

/-- The `"\n\n"` separator used throughout `rag.py`. -/
def sep2 : PyStr := ['\n', '\n']

/-- The `"..."` truncation marker from `rag.py`. -/
def dots : PyStr := ['.', '.', '.']

namespace Rag

/-- `load_kb_text` (rag.py:31-47): the knowledge-base source is `none` when the
file does not exist (the `FileNotFoundError` branch returns `""`), otherwise
its text content. -/
def load_kb_text (kbSource : Option PyStr) : PyStr :=
  match kbSource with
  | none => []
  | some s => s

/-- The paragraph-splitting step of `chunk_text` (rag.py:68-72): split on double
newlines; if that yields a single part, fall back to single newlines. -/
def splitParagraphs (text : PyStr) : List PyStr :=
  let paragraphs := Py.splitP text
  if paragraphs.length = 1 then Py.splitNL text else paragraphs

/-- The accumulation loop of `chunk_text` (rag.py:74-95): greedily pack stripped
paragraphs into chunks of at most `size` characters (counting a 2-character
separator), flushing the current chunk when the next paragraph would overflow. -/
def chunkLoop (size : Nat) : List PyStr → List PyStr → PyStr → List PyStr
  | [], chunks, current =>
    if current ≠ [] then chunks ++ [current] else chunks
  | para :: rest, chunks, current =>
    let p := Py.strip para
    if p = [] then chunkLoop size rest chunks current
    else if current ≠ [] ∧ size < current.length + p.length + 2 then
      chunkLoop size rest (chunks ++ [current]) p
    else
      chunkLoop size rest chunks (if current ≠ [] then current ++ sep2 ++ p else p)

/-- `chunk_text` (rag.py:50-97). -/
def chunk_text (text : PyStr) (size : Nat := 1000) : List PyStr :=
  if Py.strip text = [] then []
  else chunkLoop size (splitParagraphs text) [] []

/-- The punctuation set replaced by spaces in `tokenize_simple` (rag.py:114). -/
def punctChars : List Char := ['.', ',', '!', '?', ';', ':', '(', ')', '[', ']', '{', '}', '"', '\'']

/-- `tokenize_simple` (rag.py:100-119): lowercase, replace punctuation with
spaces, split on whitespace, collapse duplicates (Python returns a `set`;
we keep first occurrences). -/
def tokenize_simple (text : PyStr) : List PyStr :=
  let lowered := text.map Char.toLower
  let replaced := lowered.map (fun c => if c ∈ punctChars then ' ' else c)
  (Py.splitWs replaced).dedup

/-- `score_chunk` (rag.py:122-135): size of the intersection of the query token
set and the chunk token set. -/
def score_chunk (queryTokens : List PyStr) (chunkText : PyStr) : Nat :=
  let chunkTokens := tokenize_simple chunkText
  (queryTokens.filter (fun t => t ∈ chunkTokens)).length

/-- `build_query` (rag.py:138-181): compose the retrieval query from age,
domain and free text. Age arithmetic uses Python's floor division/modulo. -/
def build_query (ageMonths : Option Int) (domain : Option PyStr)
    (extraInfo : Option PyStr) : PyStr :=
  let ageParts : List PyStr :=
    match ageMonths with
    | none => []
    | some a =>
      let years := Int.fdiv a 12
      let months := Int.emod a 12
      let yearParts : List PyStr :=
        if 0 < years then
          [(toString years).data ++ " year".data ++ (if 1 < years then ['s'] else [])]
        else []
      let monthParts : List PyStr :=
        if 0 < months then
          [(toString months).data ++ " month".data ++ (if 1 < months then ['s'] else [])]
        else []
      yearParts ++ monthParts ++ [(toString a).data ++ " months".data]
  let domainParts : List PyStr :=
    match domain with
    | none => []
    | some d =>
      if d = [] then []
      else [d, (d.map Char.toLower).map (fun c => if c = '_' then ' ' else c)]
  let extraParts : List PyStr :=
    match extraInfo with
    | none => []
    | some e => if e = [] then [] else [e]
  Py.join [' '] (ageParts ++ domainParts ++ extraParts)

/-- Stable insertion for the descending sort: a new element goes before the
first element whose score is not larger, i.e. after every earlier element with
a strictly larger score and before equal-scored later elements. -/
def insertDesc (x : Nat × PyStr) : List (Nat × PyStr) → List (Nat × PyStr)
  | [] => [x]
  | y :: ys => if y.1 ≤ x.1 then x :: y :: ys else y :: insertDesc x ys

/-- `scored_chunks.sort(key=lambda x: x[0], reverse=True)` (rag.py:223):
Python's stable sort, descending on the score; embedded as a stable
insertion sort (stable sorts agree on their output). -/
def sortDesc (l : List (Nat × PyStr)) : List (Nat × PyStr) :=
  l.foldr insertDesc []

/-- The scored-candidate list built at rag.py:217-220, in document order. -/
def scored_chunks (queryTokens : List PyStr) (chunks : List PyStr) :
    List (Nat × PyStr) :=
  chunks.map (fun c => (score_chunk queryTokens c, c))

/-- The assembly loop of `retrieve_context` (rag.py:226-251): walk ranked
candidates accumulating `context_parts` and `total_chars`. -/
def assembleLoop (budget : Nat) : List (Nat × PyStr) → List PyStr → Nat → List PyStr
  | [], parts, _ => parts
  | (score, chunk) :: rest, parts, total =>
    if score = 0 ∧ parts ≠ [] then assembleLoop budget rest parts total
    else if budget < total + chunk.length then
      if parts = [] then parts ++ [chunk.take (budget - total) ++ dots]
      else parts
    else
      let parts' := parts ++ [chunk]
      let total' := total + chunk.length + 2
      if budget ≤ total' then parts' else assembleLoop budget rest parts' total'

/-- The accepted parts of the assembly phase, starting from the empty state. -/
def assembleParts (cands : List (Nat × PyStr)) (budget : Nat) : List PyStr :=
  assembleLoop budget cands [] 0

/-- The assembled context string: `"\n\n".join(context_parts)` (rag.py:253). -/
def assemble (cands : List (Nat × PyStr)) (budget : Nat) : PyStr :=
  Py.join sep2 (assembleParts cands budget)

/-- `retrieve_context` (rag.py:184-253), lexical retrieval path. -/
def retrieve_context (kbSource : Option PyStr) (ageMonths : Option Int)
    (domain : Option PyStr) (extraInfo : Option PyStr) (budget : Nat) : PyStr :=
  let kb_text := load_kb_text kbSource
  if Py.strip kb_text = [] then []
  else
    let query := build_query ageMonths domain extraInfo
    let query_tokens := tokenize_simple query
    let chunks := chunk_text kb_text 1000
    if chunks = [] then []
    else assemble (sortDesc (scored_chunks query_tokens chunks)) budget

end Rag

namespace Memory

/-- A history entry: `{"role": ..., "content": ...}` (memory.py). -/
structure Msg where
  role : PyStr
  content : PyStr
deriving DecidableEq, Repr

/-- The `"user"` role string. -/
def userRole : PyStr := "user".data

/-- The `"assistant"` role string. -/
def assistantRole : PyStr := "assistant".data

/-- `ConversationMemoryManager.add_message` (memory.py:48-71) acting on one
session's history: append the user and assistant entries, then, if the length
exceeds `max_history * 2`, keep the Python slice `memory[-(max_history * 2):]`
(which is the whole list when `max_history = 0`, since `-0 == 0`). -/
def add_message (max_history : Nat) (memory : List Msg)
    (human_message ai_message : PyStr) : List Msg :=
  let m := memory ++ [⟨userRole, human_message⟩, ⟨assistantRole, ai_message⟩]
  if max_history * 2 < m.length then Py.lastSlice m (max_history * 2) else m

/-- The history of a fresh session after `n` calls of `add_message`, with the
`i`-th exchange carrying messages `u i` and `a i`. -/
def histAfter (max_history n : Nat) (u a : Nat → PyStr) : List Msg :=
  (List.range n).foldl (fun h i => add_message max_history h (u i) (a i)) []

/-- The pair of entries appended by the `i`-th exchange. -/
def exchangeMsgs (u a : Nat → PyStr) (i : Nat) : List Msg :=
  [⟨userRole, u i⟩, ⟨assistantRole, a i⟩]

/-- The manager's `_sessions` dict: an insertion-ordered association list
(Python dicts preserve insertion order). -/
abbrev Sessions := List (PyStr × List Msg)

/-- `session_id in self._sessions`. -/
def sessionsLookup (s : Sessions) (session_id : PyStr) : Option (List Msg) :=
  (s.find? (fun e => e.1 = session_id)).map (fun e => e.2)

/-- `ConversationMemoryManager.get_memory` (memory.py:33-46): create the
session with an empty history when absent, then return its history.  Returns
the history together with the updated store. -/
def get_memory (s : Sessions) (session_id : PyStr) : List Msg × Sessions :=
  match sessionsLookup s session_id with
  | none => ([], s ++ [(session_id, [])])
  | some h => (h, s)

/-- `ConversationMemoryManager.get_history` (memory.py:73-88): delegates to
`get_memory` (the `as_messages` flag is unused). -/
def get_history (s : Sessions) (session_id : PyStr) : List Msg × Sessions :=
  get_memory s session_id

/-- `ConversationMemoryManager.get_context_for_llm` (memory.py:158-185):
optionally prepend a system message (only when `include_system` is set and the
prompt is a non-empty string, per Python truthiness), then extend with the
session history obtained through `get_history`. -/
def get_context_for_llm (s : Sessions) (session_id : PyStr)
    (include_system : Bool) (system_prompt : Option PyStr) :
    List Msg × Sessions :=
  let sysMsgs : List Msg :=
    match system_prompt with
    | some p => if include_system ∧ p ≠ [] then [⟨"system".data, p⟩] else []
    | none => []
  let (history, s') := get_history s session_id
  (sysMsgs ++ history, s')

/-- `ConversationMemoryManager.get_session_count` (memory.py:138-145). -/
def get_session_count (s : Sessions) : Nat := s.length

/-- `ConversationMemoryManager.get_session_ids` (memory.py:147-154). -/
def get_session_ids (s : Sessions) : List PyStr := s.map (fun e => e.1)

end Memory

namespace VectorStore

/-- `VectorStoreManager.semantic_search` (vector_store.py:188-223): the
external store's similarity ranking for the query is the opaque capability
`nearestNeighbors`; we model it by the ranked document list itself, of which
`similarity_search(query, k=k)` returns the first `k`. -/
def semantic_search (ranked : List PyStr) (k : Nat) : List PyStr :=
  ranked.take k

/-- The labelled parts built at vector_store.py:248-250:
`f"[Context {i}]\n{doc.page_content}\n"` for `i` counted from 1. -/
def contextParts (documents : List PyStr) : List PyStr :=
  (List.range documents.length).zip documents |>.map
    (fun p => "[Context ".data ++ (toString (p.1 + 1)).data ++ "]\n".data ++ p.2 ++ ['\n'])

/-- `VectorStoreManager.retrieve_context` (vector_store.py:225-252): fetch `k`
documents from the similarity search and join the labelled parts with `"\n"`;
empty result gives the empty string. -/
def retrieve_context (ranked : List PyStr) (k : Nat) : PyStr :=
  let documents := semantic_search ranked k
  if documents = [] then []
  else Py.join ['\n'] (contextParts documents)

end VectorStore

namespace Py

theorem join_cons_cons (sep : PyStr) (x y : PyStr) (t : List PyStr) :
    join sep (x :: y :: t) = x ++ sep ++ join sep (y :: t) := rfl

/-- Length of a `join`: the part lengths plus one separator per gap. -/
theorem join_length (sep : PyStr) :
    ∀ (t : List PyStr) (x : PyStr),
    (join sep (x :: t)).length = ((x :: t).map List.length).sum + sep.length * t.length := by
  intro t
  induction t with
  | nil => intro x; simp [join]
  | cons y t ih =>
    intro x
    rw [join_cons_cons]
    simp only [List.length_append, ih y, List.map_cons, List.sum_cons, List.length_cons]
    ring

theorem join_glue (sep : PyStr) (a b : PyStr) (t : List PyStr) :
    join sep ((a ++ sep ++ b) :: t) = join sep (a :: b :: t) := by
  cases t with
  | nil => simp [join]
  | cons y t => simp [join, List.append_assoc]

theorem join_cons_head (sep : PyStr) (c : Char) (h : PyStr) (t : List PyStr) :
    join sep ((c :: h) :: t) = c :: join sep (h :: t) := by
  cases t with
  | nil => rfl
  | cons y t => simp [join, List.append_assoc]

/-- Every character of a joined string comes from the separator or a part. -/
theorem mem_join (sep : PyStr) :
    ∀ (parts : List PyStr) (c : Char), c ∈ join sep parts →
      c ∈ sep ∨ ∃ p ∈ parts, c ∈ p := by
  intro parts
  induction parts with
  | nil => intro c hc; simp [join] at hc
  | cons x t ih =>
    intro c hc
    cases t with
    | nil =>
      simp only [join] at hc
      exact Or.inr ⟨x, by simp, hc⟩
    | cons y t' =>
      rw [join_cons_cons] at hc
      simp only [List.mem_append] at hc
      rcases hc with (hc | hc) | hc
      · exact Or.inr ⟨x, by simp, hc⟩
      · exact Or.inl hc
      · rcases ih c hc with h | ⟨p, hp, hcp⟩
        · exact Or.inl h
        · exact Or.inr ⟨p, by simp [hp], hcp⟩

theorem mem_of_mem_join (sep : PyStr) :
    ∀ (parts : List PyStr) (p : PyStr) (c : Char),
      p ∈ parts → c ∈ p → c ∈ join sep parts := by
  intro parts
  induction parts with
  | nil => intro p c hp; simp at hp
  | cons x t ih =>
    intro p c hp hc
    cases t with
    | nil =>
      simp at hp; subst hp; simpa [join] using hc
    | cons y t' =>
      rw [join_cons_cons]
      simp only [List.mem_append]
      rcases List.mem_cons.mp hp with rfl | hp
      · exact Or.inl (Or.inl hc)
      · exact Or.inr (ih p c hp hc)

/-- `strip` is empty exactly when the string is all whitespace. -/
theorem strip_eq_nil_iff (s : PyStr) :
    strip s = [] ↔ ∀ c ∈ s, c.isWhitespace := by
  unfold strip
  constructor
  · intro h c hc
    rw [List.reverse_eq_nil_iff, List.dropWhile_eq_nil_iff] at h
    have hc2 : c ∈ s.takeWhile Char.isWhitespace ++ s.dropWhile Char.isWhitespace := by
      rw [List.takeWhile_append_dropWhile]; exact hc
    rcases List.mem_append.mp hc2 with h1 | h1
    · exact List.mem_takeWhile_imp h1
    · exact h c (by simpa using h1)
  · intro h
    have : s.dropWhile Char.isWhitespace = [] :=
      List.dropWhile_eq_nil_iff.mpr fun c hc => h c hc
    simp [this]

theorem strip_length_le (s : PyStr) : (strip s).length ≤ s.length := by
  unfold strip
  have h1 : (s.dropWhile Char.isWhitespace).length ≤ s.length :=
    (List.dropWhile_sublist Char.isWhitespace (l := s)).length_le
  have h2 : ((s.dropWhile Char.isWhitespace).reverse.dropWhile Char.isWhitespace).length ≤
      (s.dropWhile Char.isWhitespace).reverse.length :=
    (List.dropWhile_sublist Char.isWhitespace).length_le
  simp only [List.length_reverse] at *
  omega

theorem lastSlice_length_le (l : List α) (k : Nat) (hk : k ≠ 0) :
    (lastSlice l k).length ≤ k := by
  unfold lastSlice
  rw [if_neg hk]
  simp only [List.length_drop]
  omega

end Py

namespace Rag

/-- Sum of the lengths of a list of strings. -/
def sumLens (parts : List PyStr) : Nat := (parts.map List.length).sum

theorem sumLens_append_singleton (parts : List PyStr) (x : PyStr) :
    sumLens (parts ++ [x]) = sumLens parts + x.length := by
  simp [sumLens]

/-- Budget invariant of the assembly loop: as long as the state satisfies
`total = sumLens parts + 2 * parts.length` and, when non-empty,
`total ≤ budget + 2`, any multi-chunk result satisfies the joined-length
bound `sumLens + 2·(count−1) ≤ budget`. -/
theorem assembleLoop_bound (budget : Nat) :
    ∀ (cands : List (Nat × PyStr)) (parts : List PyStr) (total : Nat),
    total = sumLens parts + 2 * parts.length →
    (parts ≠ [] → total ≤ budget + 2) →
    2 ≤ (assembleLoop budget cands parts total).length →
    sumLens (assembleLoop budget cands parts total) +
      2 * ((assembleLoop budget cands parts total).length - 1) ≤ budget := by
  intro cands
  induction cands with
  | nil =>
    intro parts total ht hb hlen
    simp only [assembleLoop] at hlen ⊢
    have hne : parts ≠ [] := by
      intro h; subst h; simp at hlen
    have := hb hne
    omega
  | cons hd tl ih =>
    obtain ⟨score, chunk⟩ := hd
    intro parts total ht hb hlen
    simp only [assembleLoop] at hlen ⊢
    by_cases h1 : score = 0 ∧ parts ≠ []
    · rw [if_pos h1] at hlen ⊢
      exact ih parts total ht hb hlen
    · rw [if_neg h1] at hlen ⊢
      by_cases h2 : budget < total + chunk.length
      · rw [if_pos h2] at hlen ⊢
        by_cases h3 : parts = []
        · rw [if_pos h3] at hlen; subst h3; simp at hlen
        · rw [if_neg h3] at hlen ⊢
          have := hb h3
          omega
      · rw [if_neg h2] at hlen ⊢
        by_cases h4 : budget ≤ total + chunk.length + 2
        · rw [if_pos h4] at hlen ⊢
          rw [sumLens_append_singleton]
          simp only [List.length_append, List.length_singleton]
          omega
        · rw [if_neg h4] at hlen ⊢
          refine ih (parts ++ [chunk]) (total + chunk.length + 2) ?_ ?_ hlen
          · rw [sumLens_append_singleton]
            simp only [List.length_append, List.length_singleton]
            omega
          · intro _; omega

/-- Joined length of a non-empty part list. -/
theorem assemble_length (cands : List (Nat × PyStr)) (budget : Nat)
    (h : assembleParts cands budget ≠ []) :
    (assemble cands budget).length =
      sumLens (assembleParts cands budget) +
        2 * ((assembleParts cands budget).length - 1) := by
  unfold assemble
  rcases hx : assembleParts cands budget with _ | ⟨x, t⟩
  · exact absurd hx h
  · rw [Py.join_length]
    simp only [sep2, sumLens, List.length_cons]
    simp

/-- C8 helper: any multi-chunk assembly stays within budget. -/
theorem assemble_multi_le_budget (cands : List (Nat × PyStr)) (budget : Nat)
    (h : 2 ≤ (assembleParts cands budget).length) :
    (assemble cands budget).length ≤ budget := by
  have hne : assembleParts cands budget ≠ [] := by
    intro hx; rw [hx] at h; simp at h
  rw [assemble_length cands budget hne]
  exact assembleLoop_bound budget cands [] 0 (by simp [sumLens]) (by simp) h

end Rag

/-- C8: the claim that the joined, untruncated multi-chunk output may exceed
the budget is false: the per-chunk 2-character allowance also counts a
separator for the final chunk, so the acceptance check is conservative and
the joined output never exceeds the budget. -/
theorem c8_counterexample :
    ¬ ∃ (cands : List (Nat × PyStr)) (budget : Nat),
        2 ≤ (Rag.assembleParts cands budget).length ∧
        budget < (Rag.assemble cands budget).length := by
  rintro ⟨cands, budget, hmulti, hover⟩
  exact absurd (Rag.assemble_multi_le_budget cands budget hmulti) (by omega)

/-- C8 (amended): in the untruncated multi-chunk case the joined output never
exceeds the budget; the 2-character separator allowance is counted for every
accepted chunk, including the last, so the byte bound is in fact hard. -/
theorem c8_amended (cands : List (Nat × PyStr)) (budget : Nat)
    (h : 2 ≤ (Rag.assembleParts cands budget).length) :
    (Rag.assemble cands budget).length ≤ budget :=
  Rag.assemble_multi_le_budget cands budget h

/-- C8 witness: a concrete two-chunk assembly staying within its budget. -/
theorem c8_witness :
    2 ≤ (Rag.assembleParts [(1, "aaaa".data), (1, "bbbb".data)] 20).length ∧
    (Rag.assemble [(1, "aaaa".data), (1, "bbbb".data)] 20).length ≤ 20 :=
  ⟨by decide, c8_amended [(1, "aaaa".data), (1, "bbbb".data)] 20 (by decide)⟩

/-- C6: when nothing has been accepted yet and the first candidate exceeds the
budget, assembly truncates it to the remaining budget (a `budget`-character
prefix), appends the `"..."` marker, and stops: no further candidate is
appended. -/
theorem c6_truncation (budget score : Nat) (chunk : PyStr)
    (rest : List (Nat × PyStr)) (h : budget < chunk.length) :
    Rag.assembleParts ((score, chunk) :: rest) budget
        = [chunk.take budget ++ dots] ∧
    Rag.assemble ((score, chunk) :: rest) budget = chunk.take budget ++ dots ∧
    (chunk.take budget).length = budget := by
  have hparts : Rag.assembleParts ((score, chunk) :: rest) budget
      = [chunk.take budget ++ dots] := by
    unfold Rag.assembleParts Rag.assembleLoop
    rw [if_neg (by simp), if_pos (by omega), if_pos rfl]
    simp
  refine ⟨hparts, ?_, ?_⟩
  · unfold Rag.assemble
    rw [hparts]; rfl
  · simp only [List.length_take]
    omega

/-- C6 witness (Scenario E): budget 10, single 50-character candidate. -/
theorem c6_truncation_witness :
    Rag.assembleParts [(3, List.replicate 50 'a'), (1, "bb".data)] 10
      = [List.replicate 10 'a' ++ dots] := by
  have h := c6_truncation 10 3 (List.replicate 50 'a') [(1, "bb".data)] (by simp)
  rw [h.1]
  decide

namespace Rag

/-- Instrumented version of the assembly loop that keeps, next to each accepted
(possibly truncated) text, the score of the candidate it came from.  Mapping
`Prod.snd` over it recovers `assembleLoop` exactly
(`assembleLoop_eq_map_acceptLoop`). -/
def acceptLoop (budget : Nat) :
    List (Nat × PyStr) → List (Nat × PyStr) → Nat → List (Nat × PyStr)
  | [], parts, _ => parts
  | (score, chunk) :: rest, parts, total =>
    if score = 0 ∧ parts ≠ [] then acceptLoop budget rest parts total
    else if budget < total + chunk.length then
      if parts = [] then parts ++ [(score, chunk.take (budget - total) ++ dots)]
      else parts
    else
      let parts' := parts ++ [(score, chunk)]
      let total' := total + chunk.length + 2
      if budget ≤ total' then parts' else acceptLoop budget rest parts' total'

/-- The accepted candidates of an assembly run, with their scores. -/
def acceptedCandidates (cands : List (Nat × PyStr)) (budget : Nat) :
    List (Nat × PyStr) :=
  acceptLoop budget cands [] 0

theorem assembleLoop_eq_map_acceptLoop (budget : Nat) :
    ∀ (cands : List (Nat × PyStr)) (parts : List (Nat × PyStr)) (total : Nat),
    assembleLoop budget cands (parts.map Prod.snd) total
      = (acceptLoop budget cands parts total).map Prod.snd := by
  intro cands
  induction cands with
  | nil => intro parts total; simp [assembleLoop, acceptLoop]
  | cons hd tl ih =>
    obtain ⟨score, chunk⟩ := hd
    intro parts total
    simp only [assembleLoop, acceptLoop]
    have hnil : (parts.map Prod.snd = []) ↔ parts = [] := by
      simp
    by_cases h1 : score = 0 ∧ parts ≠ []
    · rw [if_pos ⟨h1.1, fun hx => h1.2 (hnil.mp hx)⟩, if_pos h1]
      exact ih parts total
    · rw [if_neg (fun hx => h1 ⟨hx.1, fun hy => hx.2 (hnil.mpr hy)⟩),
        if_neg h1]
      by_cases h2 : budget < total + chunk.length
      · rw [if_pos h2, if_pos h2]
        by_cases h3 : parts = []
        · rw [if_pos (hnil.mpr h3), if_pos h3]; simp
        · rw [if_neg (fun hx => h3 (hnil.mp hx)), if_neg h3]
      · rw [if_neg h2, if_neg h2]
        by_cases h4 : budget ≤ total + chunk.length + 2
        · rw [if_pos h4, if_pos h4]; simp
        · rw [if_neg h4, if_neg h4]
          have := ih (parts ++ [(score, chunk)]) (total + chunk.length + 2)
          simpa using this

theorem assembleParts_eq_map_accepted (cands : List (Nat × PyStr)) (budget : Nat) :
    assembleParts cands budget = (acceptedCandidates cands budget).map Prod.snd := by
  have := assembleLoop_eq_map_acceptLoop budget cands [] 0
  simpa [assembleParts, acceptedCandidates] using this

/-- Once the accepted list is non-empty, an all-zero-score candidate tail is
skipped entirely. -/
theorem acceptLoop_all_zero (budget : Nat) :
    ∀ (cands : List (Nat × PyStr)) (parts : List (Nat × PyStr)) (total : Nat),
    (∀ x ∈ cands, x.1 = 0) → parts ≠ [] →
    acceptLoop budget cands parts total = parts := by
  intro cands
  induction cands with
  | nil => intro parts total _ _; rfl
  | cons hd tl ih =>
    obtain ⟨score, chunk⟩ := hd
    intro parts total hz hne
    have hs : score = 0 := hz (score, chunk) (by simp)
    simp only [acceptLoop]
    rw [if_pos ⟨hs, hne⟩]
    exact ih parts total (fun x hx => hz x (by simp [hx])) hne

/-- Core invariant for C1: on a descending-sorted candidate list, starting
from an all-positive accepted state, if any accepted candidate has a positive
score then all of them do. -/
theorem acceptLoop_pos_invariant (budget : Nat) :
    ∀ (cands : List (Nat × PyStr)) (parts : List (Nat × PyStr)) (total : Nat),
    List.Pairwise (fun a b => b.1 ≤ a.1) cands →
    (∀ x ∈ parts, 0 < x.1) →
    (∃ x ∈ acceptLoop budget cands parts total, 0 < x.1) →
    ∀ y ∈ acceptLoop budget cands parts total, 0 < y.1 := by
  intro cands
  induction cands with
  | nil => intro parts total _ hpos _ y hy; exact hpos y hy
  | cons hd tl ih =>
    obtain ⟨score, chunk⟩ := hd
    intro parts total hsorted hpos hex y hy
    have hsorted' : List.Pairwise (fun a b : Nat × PyStr => b.1 ≤ a.1) tl :=
      hsorted.of_cons
    simp only [acceptLoop] at hex hy
    by_cases h1 : score = 0 ∧ parts ≠ []
    · rw [if_pos h1] at hex hy
      exact ih parts total hsorted' hpos hex y hy
    · rw [if_neg h1] at hex hy
      by_cases h2 : budget < total + chunk.length
      · rw [if_pos h2] at hex hy
        by_cases h3 : parts = []
        · rw [if_pos h3] at hex hy
          subst h3
          obtain ⟨x, hx, hxpos⟩ := hex
          simp only [List.nil_append, List.mem_singleton] at hx hy
          subst hx; subst hy; exact hxpos
        · rw [if_neg h3] at hex hy
          exact hpos y hy
      · rw [if_neg h2] at hex hy
        by_cases hs : score = 0
        · have h3 : parts = [] := by
            by_contra hne
            exact h1 ⟨hs, hne⟩
          subst h3
          have hz : ∀ x ∈ tl, (x : Nat × PyStr).1 = 0 := by
            intro x hx
            have := (List.pairwise_cons.mp hsorted).1 x hx
            omega
          by_cases h4 : budget ≤ total + chunk.length + 2
          · rw [if_pos h4] at hex hy
            obtain ⟨x, hx, hxpos⟩ := hex
            simp only [List.nil_append, List.mem_singleton] at hx
            subst hx
            simp [hs] at hxpos
          · rw [if_neg h4] at hex hy
            rw [acceptLoop_all_zero budget tl _ _ hz (by simp)] at hex hy
            obtain ⟨x, hx, hxpos⟩ := hex
            simp only [List.nil_append, List.mem_singleton] at hx
            subst hx
            simp [hs] at hxpos
        · by_cases h4 : budget ≤ total + chunk.length + 2
          · rw [if_pos h4] at hex hy
            rcases List.mem_append.mp hy with hy1 | hy1
            · exact hpos y hy1
            · simp only [List.mem_singleton] at hy1
              subst hy1
              omega
          · rw [if_neg h4] at hex hy
            refine ih (parts ++ [(score, chunk)]) (total + chunk.length + 2)
              hsorted' ?_ hex y hy
            intro x hx
            rcases List.mem_append.mp hx with hx1 | hx1
            · exact hpos x hx1
            · simp only [List.mem_singleton] at hx1
              subst hx1
              omega

/-- When every candidate scores zero and the first fits the budget, that first
candidate is accepted and is the only accepted candidate. -/
theorem acceptLoop_all_zero_head (budget : Nat) (chunk : PyStr)
    (rest : List (Nat × PyStr)) (hz : ∀ x ∈ rest, (x : Nat × PyStr).1 = 0)
    (hfit : chunk.length ≤ budget) :
    acceptedCandidates ((0, chunk) :: rest) budget = [(0, chunk)] := by
  unfold acceptedCandidates
  simp only [acceptLoop]
  rw [if_neg (by simp), if_neg (by omega)]
  by_cases h4 : budget ≤ 0 + chunk.length + 2
  · rw [if_pos h4]; simp
  · rw [if_neg h4]
    rw [acceptLoop_all_zero budget rest _ _ hz (by simp)]
    simp

end Rag

/-- C1: on a candidate sequence sorted descending by score (as produced by
retrieval), the accepted candidates — whose texts are exactly the assembled
output parts — never mix a zero-score candidate with a positive-score one: if
any positive-score candidate is accepted, every accepted candidate has a
positive score.  And when every candidate scores zero, the first candidate is
still accepted whenever its text fits the budget (and is then the only one). -/
theorem c1_zero_score_policy (cands : List (Nat × PyStr)) (budget : Nat)
    (hsorted : List.Pairwise (fun a b : Nat × PyStr => b.1 ≤ a.1) cands) :
    (Rag.assembleParts cands budget
        = (Rag.acceptedCandidates cands budget).map Prod.snd) ∧
    ((∃ x ∈ Rag.acceptedCandidates cands budget, 0 < x.1) →
        ∀ y ∈ Rag.acceptedCandidates cands budget, 0 < y.1) ∧
    (∀ chunk rest, cands = (0, chunk) :: rest →
        chunk.length ≤ budget →
        Rag.acceptedCandidates cands budget = [(0, chunk)]) := by
  refine ⟨Rag.assembleParts_eq_map_accepted cands budget, ?_, ?_⟩
  · exact Rag.acceptLoop_pos_invariant budget cands [] 0 hsorted (by simp)
  · intro chunk rest hcands hfit
    subst hcands
    refine Rag.acceptLoop_all_zero_head budget chunk rest ?_ hfit
    intro x hx
    have := (List.pairwise_cons.mp hsorted).1 x hx
    omega

/-- C1 witness: a concrete sorted run with a positive-score chunk accepted and
a zero-score chunk skipped, plus the all-zero case accepting its head. -/
theorem c1_zero_score_policy_witness :
    ((∃ x ∈ Rag.acceptedCandidates [(2, "aa".data), (0, "zz".data)] 100, 0 < x.1) →
      ∀ y ∈ Rag.acceptedCandidates [(2, "aa".data), (0, "zz".data)] 100, 0 < y.1) ∧
    Rag.acceptedCandidates [(0, "qq".data), (0, "zz".data)] 100 = [(0, "qq".data)] :=
  ⟨(c1_zero_score_policy [(2, "aa".data), (0, "zz".data)] 100 (by decide)).2.1,
   (c1_zero_score_policy [(0, "qq".data), (0, "zz".data)] 100 (by decide)).2.2
     "qq".data [(0, "zz".data)] rfl (by decide)⟩

namespace Rag

theorem mem_insertDesc (x a : Nat × PyStr) :
    ∀ l : List (Nat × PyStr), a ∈ insertDesc x l ↔ a = x ∨ a ∈ l := by
  intro l
  induction l with
  | nil => simp [insertDesc]
  | cons y ys ih =>
    simp only [insertDesc]
    by_cases h : y.1 ≤ x.1
    · rw [if_pos h]; simp
    · rw [if_neg h]
      simp only [List.mem_cons, ih]
      tauto

theorem insertDesc_pairwise (x : Nat × PyStr) :
    ∀ l : List (Nat × PyStr),
    List.Pairwise (fun a b : Nat × PyStr => b.1 ≤ a.1) l →
    List.Pairwise (fun a b : Nat × PyStr => b.1 ≤ a.1) (insertDesc x l) := by
  intro l
  induction l with
  | nil => intro _; simp [insertDesc]
  | cons y ys ih =>
    intro hp
    obtain ⟨hy, hys⟩ := List.pairwise_cons.mp hp
    simp only [insertDesc]
    by_cases h : y.1 ≤ x.1
    · rw [if_pos h]
      refine List.pairwise_cons.mpr ⟨?_, hp⟩
      intro b hb
      rcases List.mem_cons.mp hb with rfl | hb
      · exact h
      · exact le_trans (hy b hb) h
    · rw [if_neg h]
      refine List.pairwise_cons.mpr ⟨?_, ih hys⟩
      intro b hb
      rcases (mem_insertDesc x b ys).mp hb with rfl | hb
      · omega
      · exact hy b hb

theorem sortDesc_pairwise (l : List (Nat × PyStr)) :
    List.Pairwise (fun a b : Nat × PyStr => b.1 ≤ a.1) (sortDesc l) := by
  induction l with
  | nil => simp [sortDesc]
  | cons a l ih =>
    have : sortDesc (a :: l) = insertDesc a (sortDesc l) := rfl
    rw [this]
    exact insertDesc_pairwise a (sortDesc l) ih

theorem filter_insertDesc (s : Nat) (x : Nat × PyStr) :
    ∀ l : List (Nat × PyStr),
    (insertDesc x l).filter (fun p => p.1 = s)
      = if x.1 = s then x :: l.filter (fun p => p.1 = s)
        else l.filter (fun p => p.1 = s) := by
  intro l
  induction l with
  | nil =>
    simp only [insertDesc, List.filter]
    by_cases h : x.1 = s
    · simp [h]
    · simp [h]
  | cons y ys ih =>
    simp only [insertDesc]
    by_cases h : y.1 ≤ x.1
    · rw [if_pos h]
      by_cases hx : x.1 = s
      · simp [List.filter_cons, hx]
      · simp [List.filter_cons, hx]
    · rw [if_neg h]
      rw [List.filter_cons, List.filter_cons]
      by_cases hy : y.1 = s
      · have hx : ¬ x.1 = s := by omega
        simp [hy, hx, ih]
      · by_cases hx : x.1 = s
        · simp [hy, hx, ih]
        · simp [hy, hx, ih]

/-- Stability of the descending sort: the tied elements at any score value
keep their original relative order. -/
theorem filter_sortDesc (l : List (Nat × PyStr)) (s : Nat) :
    (sortDesc l).filter (fun p => p.1 = s) = l.filter (fun p => p.1 = s) := by
  induction l with
  | nil => simp [sortDesc]
  | cons a l ih =>
    have hfold : sortDesc (a :: l) = insertDesc a (sortDesc l) := rfl
    rw [hfold, filter_insertDesc, List.filter_cons]
    by_cases hx : a.1 = s
    · simp [hx, ih]
    · simp [hx, ih]

end Rag

/-- C5: in the lexical retrieval path, the ranked candidate list fed to the
assembler is sorted descending by score, and among candidates with equal
scores the original document order of the chunks is preserved (stable sort). -/
theorem c5_stable_sort (kbText query : PyStr) :
    List.Pairwise (fun a b : Nat × PyStr => b.1 ≤ a.1)
      (Rag.sortDesc (Rag.scored_chunks (Rag.tokenize_simple query)
        (Rag.chunk_text kbText 1000))) ∧
    ∀ s : Nat,
      (Rag.sortDesc (Rag.scored_chunks (Rag.tokenize_simple query)
          (Rag.chunk_text kbText 1000))).filter (fun p => p.1 = s)
        = (Rag.scored_chunks (Rag.tokenize_simple query)
            (Rag.chunk_text kbText 1000)).filter (fun p => p.1 = s) :=
  ⟨Rag.sortDesc_pairwise _, fun s => Rag.filter_sortDesc _ s⟩

/-- C7: when the knowledge-base source is absent (file not found) or its text
is empty or whitespace-only, lexical retrieval returns the empty string for
every query; the condition is handled by an explicit branch, never an error. -/
theorem c7_absent_kb (kbSource : Option PyStr) (ageMonths : Option Int)
    (domain : Option PyStr) (extraInfo : Option PyStr) (budget : Nat)
    (h : kbSource = none ∨ Py.strip (Rag.load_kb_text kbSource) = []) :
    Rag.retrieve_context kbSource ageMonths domain extraInfo budget = [] := by
  have hstrip : Py.strip (Rag.load_kb_text kbSource) = [] := by
    rcases h with rfl | h
    · rfl
    · exact h
  unfold Rag.retrieve_context
  rw [if_pos hstrip]

/-- C7 witness: concrete absent and whitespace-only knowledge bases. -/
theorem c7_absent_kb_witness :
    Rag.retrieve_context none (some 24) (some "communication".data) none 6000 = [] ∧
    Rag.retrieve_context (some " \n\n ".data) (some 24) none none 6000 = [] :=
  ⟨c7_absent_kb none (some 24) (some "communication".data) none 6000 (Or.inl rfl),
   c7_absent_kb (some " \n\n ".data) (some 24) none none 6000 (Or.inr (by decide))⟩

namespace Py

theorem splitNL_ne_nil : ∀ s : PyStr, splitNL s ≠ [] := by
  intro s
  match s with
  | [] => simp [splitNL]
  | c :: rest =>
    simp only [splitNL]
    by_cases h : c = '\n'
    · rw [if_pos h]; simp
    · rw [if_neg h]
      rcases hx : splitNL rest with _ | ⟨h1, t1⟩ <;> simp

theorem splitP_ne_nil : ∀ s : PyStr, splitP s ≠ [] := by
  intro s
  match s with
  | [] => simp [splitP]
  | [c] => simp [splitP]
  | c :: d :: rest =>
    simp only [splitP]
    by_cases h : c = '\n' ∧ d = '\n'
    · rw [if_pos h]; simp
    · rw [if_neg h]
      rcases hx : splitP (d :: rest) with _ | ⟨h1, t1⟩ <;> simp

/-- Reconstruction: joining the single-newline split with `"\n"` gives back
the original string. -/
theorem join_splitNL : ∀ s : PyStr, join ['\n'] (splitNL s) = s
  | [] => by simp [splitNL, join]
  | c :: rest => by
    simp only [splitNL]
    have ih := join_splitNL rest
    by_cases h : c = '\n'
    · rw [if_pos h]
      subst h
      rcases hx : splitNL rest with _ | ⟨h1, t1⟩
      · exact absurd hx (splitNL_ne_nil rest)
      · rw [hx] at ih
        rw [join_cons_cons]
        simpa using ih
    · rw [if_neg h]
      rcases hx : splitNL rest with _ | ⟨h1, t1⟩
      · exact absurd hx (splitNL_ne_nil rest)
      · rw [hx] at ih
        simp only [hx]
        rw [join_cons_head]
        simpa using ih

/-- Reconstruction: joining the double-newline split with `"\n\n"` gives back
the original string. -/
theorem join_splitP : ∀ s : PyStr, join sep2 (splitP s) = s
  | [] => by simp [splitP, join]
  | [c] => by simp [splitP, join]
  | c :: d :: rest => by
    simp only [splitP]
    by_cases h : c = '\n' ∧ d = '\n'
    · rw [if_pos h]
      obtain ⟨rfl, rfl⟩ := h
      have ih := join_splitP rest
      rcases hx : splitP rest with _ | ⟨h1, t1⟩
      · exact absurd hx (splitP_ne_nil rest)
      · rw [hx] at ih
        rw [join_cons_cons]
        simp only [sep2, List.nil_append]
        simpa using ih
    · rw [if_neg h]
      have ih := join_splitP (d :: rest)
      rcases hx : splitP (d :: rest) with _ | ⟨h1, t1⟩
      · exact absurd hx (splitP_ne_nil _)
      · rw [hx] at ih
        simp only [hx]
        rw [join_cons_head]
        simpa using ih

end Py

namespace Rag

/-- The non-empty stripped paragraphs, in document order: exactly the
paragraphs the accumulation loop of `chunk_text` keeps. -/
def stripParas (ps : List PyStr) : List PyStr :=
  (ps.map Py.strip).filter (fun q => ¬ q = [])

/-- The normalized form of a text: its (non-empty, stripped) paragraphs
re-joined with the blank-line separator. -/
def normalizedText (text : PyStr) : PyStr :=
  Py.join sep2 (stripParas (splitParagraphs text))

theorem stripParas_cons_nil (p : PyStr) (rest : List PyStr)
    (hp : Py.strip p = []) : stripParas (p :: rest) = stripParas rest := by
  simp [stripParas, hp]

theorem stripParas_cons (p : PyStr) (rest : List PyStr)
    (hp : Py.strip p ≠ []) :
    stripParas (p :: rest) = Py.strip p :: stripParas rest := by
  simp [stripParas, hp]

theorem sum_map_len_add_two (l : List PyStr) :
    (l.map (fun q => q.length + 2)).sum = (l.map List.length).sum + 2 * l.length := by
  induction l with
  | nil => simp
  | cons x t ih => simp [ih]; ring

/-- Joining the split parts of `splitParagraphs` with their separator
reconstructs the text (the separator is `"\n\n"` or `"\n"` depending on the
branch taken); consequence: every character of a paragraph is a character of
the text. -/
theorem mem_text_of_mem_splitParagraphs (text : PyStr) (p : PyStr)
    (hp : p ∈ splitParagraphs text) (c : Char) (hc : c ∈ p) : c ∈ text := by
  unfold splitParagraphs at hp
  by_cases h : (Py.splitP text).length = 1
  · rw [if_pos h] at hp
    have := Py.mem_of_mem_join ['\n'] (Py.splitNL text) p c hp hc
    rwa [Py.join_splitNL] at this
  · rw [if_neg h] at hp
    have := Py.mem_of_mem_join sep2 (Py.splitP text) p c hp hc
    rwa [Py.join_splitP] at this

/-- A whitespace-only text has only whitespace-only paragraphs. -/
theorem strip_para_eq_nil_of_ws (text : PyStr) (hws : Py.strip text = [])
    (p : PyStr) (hp : p ∈ splitParagraphs text) : Py.strip p = [] := by
  rw [Py.strip_eq_nil_iff] at hws ⊢
  intro c hc
  exact hws c (mem_text_of_mem_splitParagraphs text p hp c hc)

/-- A text with a non-whitespace character has a non-empty stripped
paragraph. -/
theorem stripParas_ne_nil_of_strip_ne_nil (text : PyStr)
    (h : Py.strip text ≠ []) : stripParas (splitParagraphs text) ≠ [] := by
  intro hnil
  apply h
  rw [Py.strip_eq_nil_iff]
  intro c hc
  have hall : ∀ p ∈ splitParagraphs text, Py.strip p = [] := by
    intro p hp
    by_contra hne
    have : Py.strip p ∈ stripParas (splitParagraphs text) := by
      unfold stripParas
      rw [List.mem_filter]
      exact ⟨List.mem_map_of_mem Py.strip hp, by simpa using hne⟩
    rw [hnil] at this
    simp at this
  -- every character of the text is a separator newline or inside an
  -- all-whitespace paragraph
  unfold splitParagraphs at hall
  by_cases hb : (Py.splitP text).length = 1
  · rw [if_pos hb] at hall
    have hc2 : c ∈ Py.join ['\n'] (Py.splitNL text) := by
      rw [Py.join_splitNL]; exact hc
    rcases Py.mem_join ['\n'] (Py.splitNL text) c hc2 with hsep | ⟨p, hp, hcp⟩
    · simp at hsep; subst hsep; decide
    · have := (Py.strip_eq_nil_iff p).mp (hall p hp)
      exact this c hcp
  · rw [if_neg hb] at hall
    have hc2 : c ∈ Py.join sep2 (Py.splitP text) := by
      rw [Py.join_splitP]; exact hc
    rcases Py.mem_join sep2 (Py.splitP text) c hc2 with hsep | ⟨p, hp, hcp⟩
    · simp [sep2] at hsep; subst hsep; decide
    · have := (Py.strip_eq_nil_iff p).mp (hall p hp)
      exact this c hcp

/-- C3 accumulation lemma: when the current chunk together with all remaining
(normalized) paragraphs fits in `size`, everything collapses into one chunk. -/
theorem chunkLoop_fits (size : Nat) :
    ∀ (ps : List PyStr) (cur : PyStr), cur ≠ [] →
    cur.length + ((stripParas ps).map (fun q => q.length + 2)).sum ≤ size →
    chunkLoop size ps [] cur = [Py.join sep2 (cur :: stripParas ps)] := by
  intro ps
  induction ps with
  | nil =>
    intro cur hne _
    simp [chunkLoop, hne, stripParas, Py.join]
  | cons p rest ih =>
    intro cur hne hfit
    simp only [chunkLoop]
    by_cases hp : Py.strip p = []
    · rw [if_pos hp]
      rw [stripParas_cons_nil p rest hp] at hfit ⊢
      exact ih cur hne hfit
    · rw [if_neg hp]
      rw [stripParas_cons p rest hp] at hfit
      simp only [List.map_cons, List.sum_cons] at hfit
      have hcond : ¬ (cur ≠ [] ∧ size < cur.length + (Py.strip p).length + 2) := by
        rintro ⟨_, hlt⟩
        omega
      rw [if_neg hcond, if_pos hne]
      have hlen : (cur ++ sep2 ++ Py.strip p).length
          = cur.length + (Py.strip p).length + 2 := by
        simp [sep2]; ring
      rw [ih (cur ++ sep2 ++ Py.strip p) (by simp [hp]) (by rw [hlen]; omega)]
      rw [stripParas_cons p rest hp, Py.join_glue]

/-- C3 wrapper: from the empty starting state. -/
theorem chunkLoop_fits_start (size : Nat) :
    ∀ ps : List PyStr, stripParas ps ≠ [] →
    ((stripParas ps).map List.length).sum + 2 * ((stripParas ps).length - 1) ≤ size →
    chunkLoop size ps [] [] = [Py.join sep2 (stripParas ps)] := by
  intro ps
  induction ps with
  | nil => intro h _; simp [stripParas] at h
  | cons p rest ih =>
    intro hne hfit
    simp only [chunkLoop]
    by_cases hp : Py.strip p = []
    · rw [if_pos hp]
      rw [stripParas_cons_nil p rest hp] at hne hfit ⊢
      exact ih hne hfit
    · rw [if_neg hp]
      rw [if_neg (by simp), if_neg (by simp)]
      rw [stripParas_cons p rest hp] at hfit ⊢
      simp only [List.map_cons, List.sum_cons, List.length_cons] at hfit
      refine chunkLoop_fits size rest (Py.strip p) hp ?_
      rw [sum_map_len_add_two]
      omega

end Rag

/-- C3: the claim fails as stated: the input `"a\nb"` has length 3 ≤
targetSize 3, yet `chunk_text` returns two chunks, because the single-newline
fallback re-joins lines with the two-character `"\n\n"` separator, which can
exceed the target even though the raw input fits. -/
theorem c3_counterexample :
    ("a\nb".data).length ≤ 3 ∧ (Rag.chunk_text "a\nb".data 3).length ≠ 1 := by
  decide

/-- C3 (amended): for every input text that is not whitespace-only and whose
normalized paragraph-joined form fits in `targetSize`, `chunk_text` returns
exactly one chunk, equal to the paragraphs stripped and re-joined with the
blank-line separator. -/
theorem c3_single_chunk (text : PyStr) (size : Nat)
    (hws : Py.strip text ≠ [])
    (hfit : (Rag.normalizedText text).length ≤ size) :
    Rag.chunk_text text size = [Rag.normalizedText text] := by
  unfold Rag.chunk_text
  rw [if_neg hws]
  have hne := Rag.stripParas_ne_nil_of_strip_ne_nil text hws
  rcases hx : Rag.stripParas (Rag.splitParagraphs text) with _ | ⟨q, t⟩
  · exact absurd hx hne
  · have hlen : (Rag.normalizedText text).length
        = ((Rag.stripParas (Rag.splitParagraphs text)).map List.length).sum
          + 2 * ((Rag.stripParas (Rag.splitParagraphs text)).length - 1) := by
      unfold Rag.normalizedText
      rw [hx, Py.join_length]
      simp [sep2]
    rw [hlen] at hfit
    exact Rag.chunkLoop_fits_start size (Rag.splitParagraphs text) hne hfit

/-- C3 witness (Scenario A): one-chunk result for a two-paragraph text that
fits the target size. -/
theorem c3_single_chunk_witness :
    Rag.chunk_text "Cats purr.\n\nDogs bark.".data 1000
      = ["Cats purr.\n\nDogs bark.".data] := by
  have h := c3_single_chunk "Cats purr.\n\nDogs bark.".data 1000 (by decide) (by decide)
  rw [h]
  decide

namespace Rag

/-- Chunks already flushed survive the rest of the accumulation. -/
theorem chunkLoop_mem_chunks (size : Nat) :
    ∀ (ps : List PyStr) (chunks : List PyStr) (cur x : PyStr),
    x ∈ chunks → x ∈ chunkLoop size ps chunks cur := by
  intro ps
  induction ps with
  | nil =>
    intro chunks cur x hx
    simp only [chunkLoop]
    by_cases hc : cur ≠ []
    · rw [if_pos hc]; exact List.mem_append_left _ hx
    · rw [if_neg hc]; exact hx
  | cons p rest ih =>
    intro chunks cur x hx
    simp only [chunkLoop]
    by_cases hp : Py.strip p = []
    · rw [if_pos hp]; exact ih chunks cur x hx
    · rw [if_neg hp]
      by_cases hcond : cur ≠ [] ∧ size < cur.length + (Py.strip p).length + 2
      · rw [if_pos hcond]
        exact ih _ _ x (List.mem_append_left _ hx)
      · rw [if_neg hcond]
        exact ih _ _ x hx

/-- An oversized current chunk is flushed intact: it appears in the result. -/
theorem chunkLoop_oversized_cur (size : Nat) :
    ∀ (ps : List PyStr) (chunks : List PyStr) (cur : PyStr),
    size < cur.length → cur ∈ chunkLoop size ps chunks cur := by
  intro ps
  induction ps with
  | nil =>
    intro chunks cur hbig
    have hne : cur ≠ [] := by
      intro h; subst h; simp at hbig
    simp only [chunkLoop]
    rw [if_pos hne]
    exact List.mem_append_right _ (by simp)
  | cons p rest ih =>
    intro chunks cur hbig
    have hne : cur ≠ [] := by
      intro h; subst h; simp at hbig
    simp only [chunkLoop]
    by_cases hp : Py.strip p = []
    · rw [if_pos hp]; exact ih chunks cur hbig
    · rw [if_neg hp]
      rw [if_pos ⟨hne, by omega⟩]
      exact chunkLoop_mem_chunks size rest _ _ cur (List.mem_append_right _ (by simp))

/-- A paragraph whose stripped text exceeds `size` ends up as its own chunk. -/
theorem chunkLoop_oversized_para (size : Nat) :
    ∀ (ps : List PyStr) (chunks : List PyStr) (cur : PyStr) (para : PyStr),
    para ∈ ps → size < (Py.strip para).length →
    Py.strip para ∈ chunkLoop size ps chunks cur := by
  intro ps
  induction ps with
  | nil => intro chunks cur para hmem; simp at hmem
  | cons p rest ih =>
    intro chunks cur para hmem hbig
    rcases List.mem_cons.mp hmem with rfl | hmem
    · have hp : Py.strip para ≠ [] := by
        intro h; rw [h] at hbig; simp at hbig
      simp only [chunkLoop]
      rw [if_neg hp]
      by_cases hcond : cur ≠ [] ∧ size < cur.length + (Py.strip para).length + 2
      · rw [if_pos hcond]
        exact chunkLoop_oversized_cur size rest _ _ hbig
      · rw [if_neg hcond]
        by_cases hc : cur ≠ []
        · exact absurd ⟨hc, by omega⟩ hcond
        · rw [if_neg hc]
          exact chunkLoop_oversized_cur size rest _ _ hbig
    · simp only [chunkLoop]
      by_cases hp : Py.strip p = []
      · rw [if_pos hp]; exact ih chunks cur para hmem hbig
      · rw [if_neg hp]
        by_cases hcond : cur ≠ [] ∧ size < cur.length + (Py.strip p).length + 2
        · rw [if_pos hcond]; exact ih _ _ para hmem hbig
        · rw [if_neg hcond]; exact ih _ _ para hmem hbig

/-- Shape invariant: every chunk the loop ever emits is either a single
stripped paragraph (satisfying `P`) or a multi-paragraph chunk of length at
most `size`. -/
theorem chunkLoop_shape (size : Nat) (P : PyStr → Prop) :
    ∀ (ps : List PyStr) (chunks : List PyStr) (cur : PyStr),
    (∀ p ∈ ps, P (Py.strip p)) →
    (∀ x ∈ chunks, P x ∨ x.length ≤ size) →
    (cur ≠ [] → (P cur ∨ cur.length ≤ size)) →
    ∀ x ∈ chunkLoop size ps chunks cur, P x ∨ x.length ≤ size := by
  intro ps
  induction ps with
  | nil =>
    intro chunks cur _ hchunks hcur x hx
    simp only [chunkLoop] at hx
    by_cases hc : cur ≠ []
    · rw [if_pos hc] at hx
      rcases List.mem_append.mp hx with hx | hx
      · exact hchunks x hx
      · simp only [List.mem_singleton] at hx; subst hx; exact hcur hc
    · rw [if_neg hc] at hx
      exact hchunks x hx
  | cons p rest ih =>
    intro chunks cur hps hchunks hcur x hx
    have hps' : ∀ q ∈ rest, P (Py.strip q) := fun q hq => hps q (by simp [hq])
    simp only [chunkLoop] at hx
    by_cases hp : Py.strip p = []
    · rw [if_pos hp] at hx
      exact ih chunks cur hps' hchunks hcur x hx
    · rw [if_neg hp] at hx
      by_cases hcond : cur ≠ [] ∧ size < cur.length + (Py.strip p).length + 2
      · rw [if_pos hcond] at hx
        refine ih _ _ hps' ?_ ?_ x hx
        · intro y hy
          rcases List.mem_append.mp hy with hy | hy
          · exact hchunks y hy
          · simp only [List.mem_singleton] at hy; subst hy; exact hcur hcond.1
        · intro _
          exact Or.inl (hps p (by simp))
      · rw [if_neg hcond] at hx
        by_cases hc : cur ≠ []
        · rw [if_pos hc] at hx
          refine ih _ _ hps' hchunks ?_ x hx
          intro _
          right
          have : ¬ size < cur.length + (Py.strip p).length + 2 := by
            intro hlt; exact hcond ⟨hc, hlt⟩
          simp only [List.length_append, sep2]
          simp [sep2] at this ⊢
          omega
        · rw [if_neg hc] at hx
          refine ih _ _ hps' hchunks ?_ x hx
          intro _
          exact Or.inl (hps p (by simp))

end Rag

/-- C4: a paragraph whose stripped text alone exceeds `targetSize` appears in
the output of `chunk_text` as its own (never subdivided) chunk, and every
output chunk is either a single stripped paragraph of the input or has length
at most `targetSize`. -/
theorem c4_oversized_paragraphs (text : PyStr) (size : Nat) :
    (∀ para ∈ Rag.splitParagraphs text, size < (Py.strip para).length →
       Py.strip para ∈ Rag.chunk_text text size) ∧
    (∀ chunk ∈ Rag.chunk_text text size,
       (∃ para ∈ Rag.splitParagraphs text, chunk = Py.strip para) ∨
       chunk.length ≤ size) := by
  constructor
  · intro para hpara hbig
    unfold Rag.chunk_text
    by_cases hws : Py.strip text = []
    · exact absurd (Rag.strip_para_eq_nil_of_ws text hws para hpara)
        (by intro h; rw [h] at hbig; simp at hbig)
    · rw [if_neg hws]
      exact Rag.chunkLoop_oversized_para size (Rag.splitParagraphs text) [] [] para hpara hbig
  · intro chunk hchunk
    unfold Rag.chunk_text at hchunk
    by_cases hws : Py.strip text = []
    · rw [if_pos hws] at hchunk; simp at hchunk
    · rw [if_neg hws] at hchunk
      exact Rag.chunkLoop_shape size
        (fun x => ∃ para ∈ Rag.splitParagraphs text, x = Py.strip para)
        (Rag.splitParagraphs text) [] []
        (fun p hp => ⟨p, hp, rfl⟩)
        (by intro y hy; simp at hy)
        (by intro h; exact absurd rfl h)
        chunk hchunk

/-- C4 witness: with targetSize 3, the 4-character paragraph `"aaaa"` of
`"aaaa\n\nbb"` is an oversized chunk of its own, and each output chunk is a
single paragraph or fits in the target. -/
theorem c4_oversized_paragraphs_witness :
    "aaaa".data ∈ Rag.chunk_text "aaaa\n\nbb".data 3 ∧
    ("aaaa".data ∈ Rag.splitParagraphs "aaaa\n\nbb".data ∧
      3 < (Py.strip "aaaa".data).length) := by
  refine ⟨?_, by decide⟩
  have h := (c4_oversized_paragraphs "aaaa\n\nbb".data 3).1 "aaaa".data
    (by decide) (by decide)
  simpa using h

namespace Memory

theorem histAfter_succ (max_history n : Nat) (u a : Nat → PyStr) :
    histAfter max_history (n + 1) u a
      = add_message max_history (histAfter max_history n u a) (u n) (a n) := by
  unfold histAfter
  rw [show n + 1 = n.succ from rfl, List.range_succ, List.foldl_append]
  rfl

theorem length_flatMap_exchange (u a : Nat → PyStr) (l : List Nat) :
    (l.flatMap (exchangeMsgs u a)).length = 2 * l.length := by
  rw [List.length_flatMap]
  induction l with
  | nil => simp
  | cons x t ih => simp [exchangeMsgs] at ih ⊢; omega

/-- The retained-history law: after `n` exchanges on a fresh session with
`max_history ≥ 1`, the history is the flattened suffix of the most recent
`min n max_history` exchanges. -/
theorem histAfter_eq (max_history : Nat) (hmax : 1 ≤ max_history)
    (u a : Nat → PyStr) :
    ∀ n : Nat, histAfter max_history n u a
      = ((List.range n).drop (n - max_history)).flatMap (exchangeMsgs u a) := by
  intro n
  induction n with
  | zero => simp [histAfter]
  | succ n ih =>
    rw [histAfter_succ, ih]
    unfold add_message
    have hdrop_le : n - max_history ≤ n := by omega
    have happend :
        ((List.range n).drop (n - max_history)).flatMap (exchangeMsgs u a)
            ++ [⟨userRole, u n⟩, ⟨assistantRole, a n⟩]
          = ((List.range (n + 1)).drop (n - max_history)).flatMap (exchangeMsgs u a) := by
      rw [show n + 1 = n.succ from rfl, List.range_succ,
        List.drop_append_of_le_length (by simp [hdrop_le]),
        List.flatMap_append]
      simp [exchangeMsgs]
    rw [happend]
    have hlen : (((List.range (n + 1)).drop (n - max_history)).flatMap
        (exchangeMsgs u a)).length = 2 * ((n + 1) - (n - max_history)) := by
      rw [length_flatMap_exchange]
      simp
    by_cases hcase : max_history ≤ n
    · -- the history is full: the oldest pair is evicted
      have hlen2 : (((List.range (n + 1)).drop (n - max_history)).flatMap
          (exchangeMsgs u a)).length = 2 * max_history + 2 := by
        rw [hlen]; omega
      rw [if_pos (by omega)]
      unfold Py.lastSlice
      rw [if_neg (by omega)]
      rw [hlen2]
      have hsub : 2 * max_history + 2 - max_history * 2 = 2 := by ring_nf; omega
      rw [hsub]
      -- dropping 2 elements drops exactly the first (oldest) exchange
      have hne : n - max_history < (List.range (n + 1)).length := by
        simp; omega
      rw [List.drop_eq_getElem_cons hne, List.flatMap_cons]
      rw [show ∀ i, exchangeMsgs u a i ++
          ((List.range (n + 1)).drop (n - max_history + 1)).flatMap (exchangeMsgs u a)
          = exchangeMsgs u a i ++
          ((List.range (n + 1)).drop (n - max_history + 1)).flatMap (exchangeMsgs u a)
        from fun _ => rfl]
      have hdrop2 : ∀ (i : Nat) (l : List Msg),
          (exchangeMsgs u a i ++ l).drop 2 = l := by
        intro i l; rfl
      rw [hdrop2]
      have heq : n - max_history + 1 = n + 1 - max_history := by omega
      rw [heq]
    · -- still below capacity: nothing is trimmed
      rw [if_neg (by rw [hlen]; omega)]
      have heq : n - max_history = n + 1 - max_history := by omega
      rw [heq]

/-- Length law for a fresh session. -/
theorem histAfter_length (max_history : Nat) (hmax : 1 ≤ max_history)
    (u a : Nat → PyStr) (n : Nat) :
    (histAfter max_history n u a).length = min (2 * n) (2 * max_history) := by
  rw [histAfter_eq max_history hmax u a n, length_flatMap_exchange]
  simp only [List.length_drop, List.length_range]
  omega

/-- Bound law: one `add_message` never leaves more than `2 * max_history`
entries when `max_history ≥ 1`. -/
theorem add_message_length_le (max_history : Nat) (hmax : 1 ≤ max_history)
    (hist : List Msg) (hm am : PyStr) :
    (add_message max_history hist hm am).length ≤
      max (2 * max_history) hist.length := by
  unfold add_message
  by_cases h : max_history * 2
      < (hist ++ [(⟨userRole, hm⟩ : Msg), ⟨assistantRole, am⟩]).length
  · rw [if_pos h]
    have := Py.lastSlice_length_le
      (hist ++ [(⟨userRole, hm⟩ : Msg), ⟨assistantRole, am⟩]) (max_history * 2)
      (by omega)
    omega
  · rw [if_neg h]
    simp at h ⊢
    omega

end Memory

/-- C2: the claim fails as stated at `maxHistoryPairs = 0`: Python's trim
slice `memory[-(max_history * 2):]` is `memory[0:]` when `max_history = 0`
(`-0 == 0`), so after one exchange the history has 2 entries, not
`min(2·1, 2·0) = 0`, and the `length ≤ 2 × maxHistoryPairs` invariant is
violated. -/
theorem c2_counterexample :
    ¬ ((Memory.histAfter 0 1 (fun _ => "hi".data) (fun _ => "yo".data)).length
        = min (2 * 1) (2 * 0)) := by
  decide

/-- C2 (amended): for `maxHistoryPairs ≥ 1`, after `N` exchanges on a fresh
session the history length is `min(2N, 2·maxHistoryPairs)`, the retained
entries are exactly the most recent exchanges (oldest pairs evicted first,
FIFO), and an `add_message` on a history within bound never exceeds
`2 × maxHistoryPairs` entries. -/
theorem c2_bounded_history (max_history n : Nat) (u a : Nat → PyStr)
    (hmax : 1 ≤ max_history) :
    Memory.histAfter max_history n u a
      = ((List.range n).drop (n - max_history)).flatMap (Memory.exchangeMsgs u a) ∧
    (Memory.histAfter max_history n u a).length = min (2 * n) (2 * max_history) ∧
    (∀ (hist : List Memory.Msg) (hm am : PyStr), hist.length ≤ 2 * max_history →
       (Memory.add_message max_history hist hm am).length ≤ 2 * max_history) := by
  refine ⟨Memory.histAfter_eq max_history hmax u a n,
    Memory.histAfter_length max_history hmax u a n, ?_⟩
  intro hist hm am hle
  have := Memory.add_message_length_le max_history hmax hist hm am
  omega

/-- C2 witness (Scenario D): `maxHistoryPairs = 2`, three exchanges leave
exactly 4 entries — the second and third pairs — with pair 1 evicted. -/
theorem c2_bounded_history_witness :
    (Memory.histAfter 2 3 (fun i => [Char.ofNat (65 + i)]) (fun _ => ['x'])).length
        = min (2 * 3) (2 * 2) ∧
    Memory.histAfter 2 3 (fun i => [Char.ofNat (65 + i)]) (fun _ => ['x'])
      = ((List.range 3).drop (3 - 2)).flatMap
          (Memory.exchangeMsgs (fun i => [Char.ofNat (65 + i)]) (fun _ => ['x'])) :=
  ⟨(c2_bounded_history 2 3 (fun i => [Char.ofNat (65 + i)]) (fun _ => ['x'])
      (by decide)).2.1,
   (c2_bounded_history 2 3 (fun i => [Char.ofNat (65 + i)]) (fun _ => ['x'])
      (by decide)).1⟩

/-- C10: reading an absent session through `get_memory`, `get_history` or
`get_context_for_llm` creates it: the returned history is empty (for the LLM
context, at most a system message), but the session count grows by one and
the id appears in the session list — reads are not state-preserving on
absent sessions. -/
theorem c10_read_creates_session (s : Memory.Sessions) (session_id : PyStr)
    (habs : Memory.sessionsLookup s session_id = none) :
    ((Memory.get_memory s session_id).1 = [] ∧
      Memory.get_session_count (Memory.get_memory s session_id).2
        = Memory.get_session_count s + 1 ∧
      session_id ∈ Memory.get_session_ids (Memory.get_memory s session_id).2) ∧
    ((Memory.get_history s session_id).1 = [] ∧
      Memory.get_session_count (Memory.get_history s session_id).2
        = Memory.get_session_count s + 1 ∧
      session_id ∈ Memory.get_session_ids (Memory.get_history s session_id).2) ∧
    (∀ (include_system : Bool) (system_prompt : Option PyStr),
      (∀ m ∈ (Memory.get_context_for_llm s session_id include_system system_prompt).1,
        m.role = "system".data) ∧
      Memory.get_session_count
          (Memory.get_context_for_llm s session_id include_system system_prompt).2
        = Memory.get_session_count s + 1 ∧
      session_id ∈ Memory.get_session_ids
          (Memory.get_context_for_llm s session_id include_system system_prompt).2) := by
  have hmem : Memory.get_memory s session_id = ([], s ++ [(session_id, [])]) := by
    unfold Memory.get_memory
    rw [habs]
  have hcount : Memory.get_session_count (s ++ [(session_id, [])])
      = Memory.get_session_count s + 1 := by
    simp [Memory.get_session_count]
  have hids : session_id ∈ Memory.get_session_ids (s ++ [(session_id, [])]) := by
    simp [Memory.get_session_ids]
  refine ⟨⟨by rw [hmem], by rw [hmem]; exact hcount, by rw [hmem]; exact hids⟩,
    ⟨by rw [Memory.get_history, hmem], by rw [Memory.get_history, hmem]; exact hcount,
      by rw [Memory.get_history, hmem]; exact hids⟩, ?_⟩
  intro include_system system_prompt
  have hctx : Memory.get_context_for_llm s session_id include_system system_prompt
      = ((match system_prompt with
          | some p => if include_system ∧ p ≠ [] then [⟨"system".data, p⟩] else []
          | none => []), s ++ [(session_id, [])]) := by
    unfold Memory.get_context_for_llm
    rw [Memory.get_history, hmem]
    simp
  refine ⟨?_, by rw [hctx]; exact hcount, by rw [hctx]; exact hids⟩
  intro m hm
  rw [hctx] at hm
  rcases system_prompt with _ | p
  · simp at hm
  · simp only at hm
    by_cases hc : include_system ∧ p ≠ []
    · rw [if_pos hc] at hm
      simp only [List.mem_singleton] at hm
      subst hm
      rfl
    · rw [if_neg hc] at hm
      simp at hm

/-- C10 witness: a fresh store, read through all three operations. -/
theorem c10_read_creates_session_witness :
    Memory.get_session_count (Memory.get_memory [] "s1".data).2
        = Memory.get_session_count ([] : Memory.Sessions) + 1 ∧
    "s1".data ∈ Memory.get_session_ids (Memory.get_history [] "s1".data).2 ∧
    (∀ m ∈ (Memory.get_context_for_llm [] "s1".data true (some "be kind".data)).1,
        m.role = "system".data) :=
  ⟨((c10_read_creates_session [] "s1".data rfl).1).2.1,
   ((c10_read_creates_session [] "s1".data rfl).2.1).2.2,
   (((c10_read_creates_session [] "s1".data rfl).2.2) true (some "be kind".data)).1⟩

namespace VectorStore

theorem contextParts_length (documents : List PyStr) :
    (contextParts documents).length = documents.length := by
  simp [contextParts]

theorem retrieve_context_single (doc : PyStr) (k : Nat) (hk : 1 ≤ k) :
    retrieve_context [doc] k = "[Context 1]\n".data ++ doc ++ ['\n'] := by
  unfold retrieve_context semantic_search
  rcases k with _ | k
  · omega
  · simp [contextParts, Py.join, List.range_succ]
    rw [show (toString 1).data = ['1'] from rfl]
    rfl

end VectorStore

/-- C9: the claim fails on the code: `VectorStoreManager.retrieve_context`
passes `k` (not `2k`) to the similarity search and joins every fetched
document with a `[Context i]` label, with no character-budget check at all —
a single 6010-character document yields a 6023-character context, far above
the configured 6000-character budget (plus any truncation marker), and no
truncation occurs. -/
theorem c9_counterexample :
    (VectorStore.retrieve_context [List.replicate 6010 'a'] 4).length = 6023 ∧
    6000 + dots.length < 6023 := by
  constructor
  · rw [VectorStore.retrieve_context_single (List.replicate 6010 'a') 4 (by omega)]
    rw [List.length_append, List.length_append, List.length_replicate,
      show ("[Context 1]\n".data).length = 12 from rfl]
    rfl
  · decide

/-- C9 (amended): in the vector strategy the code fetches exactly `k`
candidates from the similarity search (the labelled parts number
`min k |ranked|`), concatenates all of them, and enforces no character
budget: the output length is unbounded. -/
theorem c9_no_budget_k_fetch :
    (∀ (ranked : List PyStr) (k : Nat),
       (VectorStore.contextParts (VectorStore.semantic_search ranked k)).length
         = min k ranked.length) ∧
    (∀ n : Nat, ∃ ranked : List PyStr,
       n < (VectorStore.retrieve_context ranked 4).length) := by
  constructor
  · intro ranked k
    rw [VectorStore.contextParts_length]
    simp [VectorStore.semantic_search]
  · intro n
    refine ⟨[List.replicate (n + 1) 'a'], ?_⟩
    rw [VectorStore.retrieve_context_single (List.replicate (n + 1) 'a') 4 (by omega)]
    simp only [List.length_append, List.length_replicate]
    omega

